import Mathlib

/-!
Verification of the diagram-element reconciliation and LLM-response pipeline of
the xcalidraft-ai repository.  The definitions below are shallow embeddings of
the TypeScript source: the response parser and action dispatch of
`AIChatPanel.tsx` (`processLLMResponse`), the linear-element normalizer, batch
identifier namespacer and scene reconciler of the Excalidraw wrapper component
(`normalizeLinearElements`, `prefixIds`, `handleElementsGenerated`), and the
per-line chunk relay of `app/api/chat/route.ts`.  JavaScript numbers are
modelled as rationals, JavaScript strings as `String` or `List Char`, and the
insertion-ordered JavaScript `Map` as an association list.
-/

namespace Xcali

/-! ## JSON values and the platform JSON parser

Modelled from the spec: the source calls the platform builtin `JSON.parse`
(not part of the repository) to turn model output and stream chunks into
structured values; the spec describes it as "attempt direct JSON parse of the
full text" with standard JSON semantics.  We model JSON values with numbers
and strings kept as their raw lexemes (escape decoding is not needed by any
claim), and a fuel-indexed recursive-descent parser over `List Char` that
accepts the JSON grammar: a value surrounded by optional whitespace, objects
with last-duplicate-key-wins field lookup, maximal-munch numbers. -/

inductive Json where
  | null : Json
  | bool (b : Bool) : Json
  | num (lex : List Char) : Json
  | str (s : List Char) : Json
  | arr (items : List Json) : Json
  | obj (fields : List (List Char × Json)) : Json

/-- JSON whitespace characters (space, tab, line feed, carriage return). -/
def isWs (c : Char) : Bool :=
  c = ' ' || c = '\t' || c = '\n' || c = '\r'

def skipWs : List Char → List Char
  | [] => []
  | c :: rest => if isWs c then skipWs rest else c :: rest

/-- Consume an expected literal sequence of characters, returning the rest. -/
def expectLit : List Char → List Char → Option (List Char)
  | [], cs => some cs
  | _ :: _, [] => none
  | e :: es, c :: cs => if c = e then expectLit es cs else none

def isDigitCh (c : Char) : Bool := '0' ≤ c && c ≤ '9'

/-- Parse the body of a JSON string after the opening quote; the value keeps
the raw lexeme (escape pairs are consumed but not decoded). -/
def parseJString : List Char → Option (List Char × List Char)
  | [] => none
  | '"' :: rest => some ([], rest)
  | '\\' :: c :: rest => (parseJString rest).map (fun pr => ('\\' :: c :: pr.1, pr.2))
  | c :: rest => (parseJString rest).map (fun pr => (c :: pr.1, pr.2))

def parseExpTail (lex : List Char) (e : Char) (cs : List Char) :
    Option (Json × List Char) :=
  let p := match cs with
    | '+' :: r => (['+'], r)
    | '-' :: r => (['-'], r)
    | _ => (([] : List Char), cs)
  let d := List.span isDigitCh p.2
  if d.1 = [] then none else some (Json.num (lex ++ e :: p.1 ++ d.1), d.2)

def parseExpPart (lex : List Char) (cs : List Char) : Option (Json × List Char) :=
  match cs with
  | 'e' :: rest => parseExpTail lex 'e' rest
  | 'E' :: rest => parseExpTail lex 'E' rest
  | _ => some (Json.num lex, cs)

def parseFracPart (lex : List Char) (cs : List Char) : Option (Json × List Char) :=
  match cs with
  | '.' :: rest =>
    let d := List.span isDigitCh rest
    if d.1 = [] then none else parseExpPart (lex ++ '.' :: d.1) d.2
  | _ => parseExpPart lex cs

/-- Parse a JSON number (maximal munch), keeping the raw lexeme. -/
def parseNum (cs : List Char) : Option (Json × List Char) :=
  let p := match cs with
    | '-' :: r => ((['-'] : List Char), r)
    | _ => (([] : List Char), cs)
  let d := List.span isDigitCh p.2
  if d.1 = [] then none else parseFracPart (p.1 ++ d.1) d.2

/-- Parsing mode: a single value, the members of an object (accumulated so
far), or the items of an array. -/
inductive PMode where
  | val : PMode
  | members (acc : List (List Char × Json)) : PMode
  | items (acc : List Json) : PMode

/-- Fuel-indexed recursive-descent JSON parser.  In `val` mode the input starts
at a non-whitespace character; returns the value and the unconsumed rest. -/
def parseF : Nat → PMode → List Char → Option (Json × List Char)
  | 0, _, _ => none
  | f + 1, PMode.val, cs =>
    match cs with
    | [] => none
    | '{' :: rest =>
      (match skipWs rest with
       | '}' :: r2 => some (Json.obj [], r2)
       | r => parseF f (PMode.members []) r)
    | '[' :: rest =>
      (match skipWs rest with
       | ']' :: r2 => some (Json.arr [], r2)
       | r => parseF f (PMode.items []) r)
    | '"' :: rest => (parseJString rest).map (fun pr => (Json.str pr.1, pr.2))
    | 'n' :: rest => (expectLit (['u', 'l', 'l']) rest).map (fun r => (Json.null, r))
    | 't' :: rest => (expectLit (['r', 'u', 'e']) rest).map (fun r => (Json.bool true, r))
    | 'f' :: rest => (expectLit (['a', 'l', 's', 'e']) rest).map (fun r => (Json.bool false, r))
    | c :: rest => if c = '-' || isDigitCh c then parseNum (c :: rest) else none
  | f + 1, PMode.members acc, cs =>
    match cs with
    | '"' :: rest =>
      (match parseJString rest with
       | some (key, r1) =>
         (match skipWs r1 with
          | ':' :: r2 =>
            (match parseF f PMode.val (skipWs r2) with
             | some (v, r3) =>
               (match skipWs r3 with
                | ',' :: r4 => parseF f (PMode.members (acc ++ [(key, v)])) (skipWs r4)
                | '}' :: r4 => some (Json.obj (acc ++ [(key, v)]), r4)
                | _ => none)
             | none => none)
          | _ => none)
       | none => none)
    | _ => none
  | f + 1, PMode.items acc, cs =>
    match parseF f PMode.val cs with
    | some (v, r1) =>
      (match skipWs r1 with
       | ',' :: r2 => parseF f (PMode.items (acc ++ [v])) (skipWs r2)
       | ']' :: r2 => some (Json.arr (acc ++ [v]), r2)
       | _ => none)
    | none => none

/-- Model of `JSON.parse` on a character list: a single JSON value surrounded only by
whitespace, or failure. -/
def jsonParseL (cs : List Char) : Option Json :=
  match parseF (cs.length + 1) PMode.val (skipWs cs) with
  | some (v, rest) => if skipWs rest = [] then some v else none
  | none => none

/-- Model of `JSON.parse` on a string. -/
def jsonParse (s : String) : Option Json := jsonParseL s.data

/-- Object field lookup with JavaScript semantics: the last duplicate key wins
(as `JSON.parse` keeps the last duplicate). -/
def lookupLast : List (List Char × Json) → List Char → Option Json
  | [], _ => none
  | (k, v) :: rest, key =>
    match lookupLast rest key with
    | some r => some r
    | none => if k = key then some v else none

/-- JavaScript property access `j[key]`: a field of an object, `undefined`
(here `none`) on every other value. -/
def jsField (j : Json) (key : List Char) : Option Json :=
  match j with
  | Json.obj fields => lookupLast fields key
  | _ => none

/-- JavaScript `[0]` indexing: first element of an array, the "0" property of
an object, `undefined` otherwise. -/
def jsIndex0 : Json → Option Json
  | Json.arr items => items.head?
  | Json.obj fields => lookupLast fields ['0']
  | _ => none

/-- A JSON number is zero exactly when its mantissa has no nonzero digit. -/
def numIsZero (lex : List Char) : Bool :=
  (lex.takeWhile (fun c => !(c = 'e' || c = 'E'))).all
    (fun c => !('1' ≤ c && c ≤ '9'))

/-- JavaScript truthiness of a JSON value. -/
def jsTruthy : Json → Bool
  | Json.null => false
  | Json.bool b => b
  | Json.num lex => !numIsZero lex
  | Json.str s => !s.isEmpty
  | Json.arr _ => true
  | Json.obj _ => true

/-! ## Response parser (`processLLMResponse` in `AIChatPanel.tsx`) -/

/-- Index of the first character satisfying `p`. -/
def idxOf? (p : Char → Bool) : List Char → Option Nat
  | [] => none
  | c :: rest => if p c then some 0 else (idxOf? p rest).map (· + 1)

/-- Index of the last character satisfying `p`. -/
def lastIdxOf? (p : Char → Bool) (cs : List Char) : Option Nat :=
  (idxOf? p cs.reverse).map (fun r => cs.length - 1 - r)

/-- The greedy regex substring extraction `content.match(/\x7b[\s\S]*\x7d/)`:
the slice from the first opening brace through the last closing brace, when
the first opening brace comes before the last closing brace. -/
def extractBraces (cs : List Char) : Option (List Char) :=
  match idxOf? (fun c => c = '{') cs, lastIdxOf? (fun c => c = '}') cs with
  | some i, some j => if i < j then some ((cs.drop i).take (j - i + 1)) else none
  | _, _ => none

/-- The two-path parse of `processLLMResponse`: direct `JSON.parse` of the
whole text, and on failure `JSON.parse` of the greedy brace substring. -/
def parseResponse (content : String) : Option Json :=
  match jsonParse content with
  | some v => some v
  | none =>
    match extractBraces content.data with
    | some sub => jsonParseL sub
    | none => none

def actionKey : List Char := ("action").data

def elementsKey : List Char := ("elements").data

/-- Model of `const action = parsed.action || "add"`: the `action` field when truthy,
the string "add" otherwise. -/
def actionOf (parsed : Json) : Json :=
  match jsField parsed actionKey with
  | some a => if jsTruthy a then a else Json.str (("add").data)
  | none => Json.str (("add").data)

/-- Outcome of `processLLMResponse`: either an error transcript entry (with
its retryable flag and the original prompt), or a call to
`onElementsGenerated` with the elements and action. -/
inductive ProcOutcome where
  | errorOut (content : String) (retryable : Bool) (originalPrompt : String) : ProcOutcome
  | generated (elements : List Json) (action : Json) : ProcOutcome

/-- Model of `processLLMResponse(content, prompt)`: parse, validate the `elements`
field, and either record a retryable error or hand the batch on. -/
def processLLMResponse (content prompt : String) : ProcOutcome :=
  match parseResponse content with
  | none =>
    ProcOutcome.errorOut ("AI returned invalid JSON. Try rephrasing your request.") true prompt
  | some parsed =>
    match jsField parsed elementsKey with
    | some (Json.arr els) =>
      if els.length = 0 then
        ProcOutcome.errorOut ("AI response missing elements. Try again.") true prompt
      else
        ProcOutcome.generated els (actionOf parsed)
    | _ => ProcOutcome.errorOut ("AI response missing elements. Try again.") true prompt

/-! ## Streaming relay (`POST` in `app/api/chat/route.ts`, SSE loop) -/

/-- An event the relay writes to the client stream from inside the line loop:
a `data: \x7b"token": ...\x7d` event or the `data: [DONE]` passthrough. -/
inductive RelayEvent where
  | token (delta : Json) : RelayEvent
  | done : RelayEvent

/-- Model of `chunk.choices?.[0]?.delta?.content` with JavaScript optional chaining:
`none` plays the role of `undefined` (and of the thrown-and-caught property
access on `null` at the head of the chain). -/
def chunkDelta (chunk : Json) : Option Json :=
  (((jsField chunk (("choices").data)).bind jsIndex0).bind
    (fun c => jsField c (("delta").data))).bind
    (fun d => jsField d (("content").data))

/-- JavaScript `String.prototype.trim` on a character list. -/
def trimL (cs : List Char) : List Char :=
  ((cs.dropWhile isWs).reverse.dropWhile isWs).reverse

/-- The body of the relay's `for (const line of lines)` loop: the events
emitted for one complete line of the upstream stream. -/
def relayLineL (cs : List Char) : List RelayEvent :=
  match trimL cs with
  | [] => []
  | t =>
    match expectLit (('d' : Char) :: 'a' :: 't' :: 'a' :: ':' :: ' ' :: []) t with
    | none => []
    | some payload =>
      if payload = ['[', 'D', 'O', 'N', 'E', ']'] then [RelayEvent.done]
      else
        match jsonParseL payload with
        | none => []
        | some chunk =>
          match chunkDelta chunk with
          | some delta => if jsTruthy delta then [RelayEvent.token delta] else []
          | none => []

/-- The delta the loop body extracts from one line, before the truthiness
check (mirrors `relayLineL` up to the `if (delta)` guard). -/
def lineDelta (cs : List Char) : Option Json :=
  match trimL cs with
  | [] => none
  | t =>
    match expectLit (('d' : Char) :: 'a' :: 't' :: 'a' :: ':' :: ' ' :: []) t with
    | none => none
    | some payload =>
      if payload = ['[', 'D', 'O', 'N', 'E', ']'] then none
      else
        match jsonParseL payload with
        | none => none
        | some chunk => chunkDelta chunk

/-- The token payloads carried by a sequence of relay events. -/
def relayTokens (evs : List RelayEvent) : List Json :=
  evs.filterMap (fun e => match e with
    | RelayEvent.token j => some j
    | RelayEvent.done => none)

/-- The property claimed of every emitted token event: it carries a non-empty
string. -/
def tokenIsNonemptyStr : RelayEvent → Bool
  | RelayEvent.token (Json.str s) => !s.isEmpty
  | RelayEvent.token _ => false
  | RelayEvent.done => true

/-! ## Expanded elements and the linear-element normalizer -/

/-- A connector binding record (`startBinding` / `endBinding`) of an expanded
Excalidraw element. -/
structure Binding where
  elementId : String
  focus : Option ℚ
  gap : ℚ
deriving DecidableEq

/-- An expanded element, with the fields the modelled passes inspect; `extra`
stands for all remaining fields, which the passes never touch. -/
structure Element where
  id : String
  type : String
  x : ℚ
  y : ℚ
  points : List (ℚ × ℚ)
  startBinding : Option Binding
  endBinding : Option Binding
  extra : String
deriving DecidableEq

/-- Clamp of one binding's `focus` into [-1, 1]
(`Math.max(-1, Math.min(1, focus))`), applied when the binding is present and
its focus is numeric. -/
def clampBinding : Option Binding → Option Binding
  | none => none
  | some b =>
    match b.focus with
    | some f => some { b with focus := some (max (-1) (min 1 f)) }
    | none => some b

/-- Origin normalization for one connector: when the first point `[dx,dy]`
differs from the origin, shift the element's `x,y` by `(dx,dy)` and subtract
`(dx,dy)` from every point. -/
def shiftOne (el : Element) : Element :=
  match el.points with
  | (dx, dy) :: ps =>
    if dx ≠ 0 ∨ dy ≠ 0 then
      { el with
        x := el.x + dx
        y := el.y + dy
        points := ((dx, dy) :: ps).map (fun q => (q.1 - dx, q.2 - dy)) }
    else el
  | [] => el

/-- Binding focus clamp for one element: both bindings, when present with a
numeric focus, get their focus clamped into [-1, 1]. -/
def clampOne (el : Element) : Element :=
  { el with
    startBinding := clampBinding el.startBinding
    endBinding := clampBinding el.endBinding }

/-- The loop body of `normalizeLinearElements` for one element: `continue`
unless the element is an arrow or line with at least two points; otherwise
shift so the first point is the origin, then clamp both binding focus
values. -/
def normalizeOne (el : Element) : Element :=
  if (el.type = "arrow" ∨ el.type = "line") ∧ 2 ≤ el.points.length then
    clampOne (shiftOne el)
  else el

/-- Model of `normalizeLinearElements` over a whole element sequence (the source
mutates the array in place; here the updated sequence is returned). -/
def normalizeLinearElements (elements : List Element) : List Element :=
  elements.map normalizeOne

/-! ## JavaScript `Map` with string keys, as an insertion-ordered
association list: `set` of a fresh key appends, `set` of a present key
updates in place, iteration order is insertion order. -/

def jsMapSet {α : Type} (m : List (String × α)) (k : String) (v : α) :
    List (String × α) :=
  if m.any (fun p => p.1 == k) then
    m.map (fun p => if p.1 == k then (k, v) else p)
  else m ++ [(k, v)]

def jsMapGet {α : Type} (m : List (String × α)) (k : String) : Option α :=
  (m.find? (fun p => p.1 == k)).map (fun p => p.2)

def jsMapHas {α : Type} (m : List (String × α)) (k : String) : Bool :=
  m.any (fun p => p.1 == k)

def jsMapDelete {α : Type} (m : List (String × α)) (k : String) :
    List (String × α) :=
  m.filter (fun p => !(p.1 == k))

/-- Replace the value stored under key `k` (no-op on maps without `k`);
proof-support characterization of in-place `Map.set` on a present key. -/
def setVal {α : Type} (m : List (String × α)) (k : String) (v : α) :
    List (String × α) :=
  m.map (fun p => if p.1 == k then (k, v) else p)

/-! ## Scene reconciler (`handleElementsGenerated` in the Excalidraw wrapper) -/

/-- One step of building `incomingById`: `if (el.id) incomingById.set(el.id, el)`
(a falsy — empty — id is skipped). -/
def bIStep (m : List (String × Element)) (el : Element) : List (String × Element) :=
  if el.id == "" then m else jsMapSet m el.id el

/-- The `modify` branch's first pass: `incomingById` built front-to-back over
the incoming batch, skipping falsy (empty) ids. -/
def buildIncomingById (els : List Element) : List (String × Element) :=
  els.foldl bIStep []

/-- The `modify` branch's second pass: walk the existing scene in order,
substituting (and consuming from the map) on an id match; returns the updated
sequence and the remaining map. -/
def applyModify : List (String × Element) → List Element →
    List Element × List (String × Element)
  | m, [] => ([], m)
  | m, el :: rest =>
    match jsMapGet m el.id with
    | some rep =>
      let res := applyModify (jsMapDelete m el.id) rest
      (rep :: res.1, res.2)
    | none =>
      let res := applyModify m rest
      (el :: res.1, res.2)

/-- The full `modify` reconciliation: substituted existing sequence followed
by the unconsumed incoming elements in map iteration order. -/
def modifyReconcile (existing incoming : List Element) : List Element :=
  let res := applyModify (buildIncomingById incoming) existing
  res.1 ++ res.2.map (fun p => p.2)

/-- Modelled from the spec: the `modify` contract in the claim's own words —
each existing element is replaced by the incoming element with the same
identifier if there is one, every other existing element is kept unchanged in
its original order, and exactly the incoming elements whose identifiers
matched no existing element are appended after the reconciled sequence. -/
def modifySpecMerge (existing incoming : List Element) : List Element :=
  existing.map (fun el => ((incoming.find? (fun e => e.id == el.id)).getD el))
  ++ incoming.filter (fun e => !(existing.any (fun x => x.id == e.id)))

/-! ## Batch identifier namespacer (`prefixIds`) -/

/-- An arrow `start`/`end` reference in a skeleton: `\x7b type, id \x7d`. -/
structure SkelRef where
  type : String
  id : Option String
  extra : String
deriving DecidableEq

/-- A model-authored element skeleton, with the fields `prefixIds` inspects;
`extra` stands for all remaining fields.  (`endRef` embeds the source's `end`
property, which is a reserved word in Lean.) -/
structure Skeleton where
  id : Option String
  start : Option SkelRef
  endRef : Option SkelRef
  extra : String
deriving DecidableEq

/-- The batch prefix computed from the incremented per-process counter. -/
def pfxOf (batchCounter : Nat) : String :=
  "b" ++ toString (batchCounter + 1) ++ "_"

/-- One step of collecting ids: skeletons whose `id` is a string get mapped
old-to-prefixed. -/
def idMapStep (pfx : String) (m : List (String × String)) (s : Skeleton) :
    List (String × String) :=
  match s.id with
  | some i => jsMapSet m i (pfx ++ i)
  | none => m

/-- First pass of `prefixIds`: collect all ids into the old-to-prefixed map. -/
def mkIdMap (pfx : String) (skeletons : List Skeleton) : List (String × String) :=
  skeletons.foldl (idMapStep pfx) []

/-- Model of `updated.id = idMap.get(updated.id) || updated.id` (the map's values are
never falsy, so `||` is the `getD` fallback for a missing key). -/
def prefixIdField (idMap : List (String × String)) (s : Skeleton) : Skeleton :=
  match s.id with
  | some i => { s with id := some ((jsMapGet idMap i).getD i) }
  | none => s

/-- Rewrite the `start` reference when its id is a string present in the
map. -/
def prefixStartField (idMap : List (String × String)) (s : Skeleton) : Skeleton :=
  match s.start with
  | some r =>
    (match r.id with
     | some ri =>
       if jsMapHas idMap ri then { s with start := some { r with id := jsMapGet idMap ri } }
       else s
     | none => s)
  | none => s

/-- Rewrite the `end` reference when its id is a string present in the map. -/
def prefixEndField (idMap : List (String × String)) (s : Skeleton) : Skeleton :=
  match s.endRef with
  | some r =>
    (match r.id with
     | some ri =>
       if jsMapHas idMap ri then { s with endRef := some { r with id := jsMapGet idMap ri } }
       else s
     | none => s)
  | none => s

/-- Second pass of `prefixIds` for one skeleton: rewrite its own id and any
`start.id` / `end.id` reference found in the map (three sequential field
updates, as in the source). -/
def prefixOne (idMap : List (String × String)) (s : Skeleton) : Skeleton :=
  prefixEndField idMap (prefixStartField idMap (prefixIdField idMap s))

/-- Model of `prefixIds` on a batch, with the pre-increment counter made explicit. -/
def prefixIds (batchCounter : Nat) (skeletons : List Skeleton) : List Skeleton :=
  skeletons.map (prefixOne (mkIdMap (pfxOf batchCounter) skeletons))

/-- The ids declared by the skeletons of a batch. -/
def batchIds (skeletons : List Skeleton) : List String :=
  skeletons.filterMap Skeleton.id

/-- The id carried by an optional reference. -/
def refIdOf (o : Option SkelRef) : Option String := o.bind SkelRef.id

/-- Model of `handleElementsGenerated`: namespace ids for the `add` action only,
convert skeletons to elements (the external library's expansion, abstracted
as `convertF`), deep-clone (identity on values), normalize linear elements,
restore (external, abstracted as `restoreF`), then merge under the action. -/
def handleElementsGenerated (convertF : List Skeleton → List Element)
    (restoreF : List Element → List Element)
    (existing : List Element) (batchCounter : Nat)
    (skeletons : List Skeleton) (action : String) : List Element :=
  let processedSkeletons :=
    if action == "add" then prefixIds batchCounter skeletons else skeletons
  let rawElements := convertF processedSkeletons
  let newElements := restoreF (normalizeLinearElements rawElements)
  if action == "replace" then newElements
  else if action == "modify" then modifyReconcile existing newElements
  else existing ++ newElements

/-! ## Concrete fixtures used by witnesses and counterexamples -/

/-- A binding with an out-of-range focus of 5. -/
def bind5 : Binding := { elementId := "r1", focus := some 5, gap := 4 }

/-- An arrow with no points and an out-of-range focus. -/
def c3El : Element :=
  { id := "a1", type := "arrow", x := 0, y := 0, points := [],
    startBinding := some bind5, endBinding := none, extra := "" }

/-- An arrow with two points and an out-of-range focus. -/
def c3Wel : Element :=
  { id := "a2", type := "arrow", x := 0, y := 0, points := [(0, 0), (10, 10)],
    startBinding := some bind5, endBinding := none, extra := "" }

/-- An arrow whose first point is away from the origin. -/
def c4El : Element :=
  { id := "a3", type := "arrow", x := 10, y := 20, points := [(1, 2), (4, 6)],
    startBinding := none, endBinding := none, extra := "" }

/-- A plain element with the given id and marker text. -/
def mkEl (i : String) (tag : String) : Element :=
  { id := i, type := "rectangle", x := 0, y := 0, points := [],
    startBinding := none, endBinding := none, extra := tag }

def elA : Element := mkEl "a" "A"

def elB : Element := mkEl "b" "B"

def elC : Element := mkEl "c" "C"

def elB2 : Element := mkEl "b" "B-replacement"

def elD : Element := mkEl "d" "D"

/-- Two distinct incoming elements sharing the id "d". -/
def dup1 : Element := mkEl "d" "first duplicate"

def dup2 : Element := mkEl "d" "second duplicate"

/-- Elements for the C9 witness: a batch with a duplicated id "w". -/
def e9a : Element := mkEl "w" "early"

def e9b : Element := mkEl "w" "late"

def e9x : Element := mkEl "x" "existing"

/-- Skeleton fixtures for the namespacer: a shape and an arrow referencing it
by id, plus a dangling reference. -/
def c2Ref1 : SkelRef := { type := "rectangle", id := some "n1", extra := "" }

def c2RefZ : SkelRef := { type := "rectangle", id := some "zz", extra := "" }

def c2S1 : Skeleton := { id := some "n1", start := none, endRef := none, extra := "s1" }

def c2S2 : Skeleton :=
  { id := some "n2", start := some c2Ref1, endRef := some c2RefZ, extra := "s2" }

def c2Sks : List Skeleton := [c2S1, c2S2]

/-- A skeleton with a declared id, for exercising the action dispatch. -/
def c5Sk : Skeleton := { id := some "a", start := none, endRef := none, extra := "sk" }

/-- A concrete stand-in for the external skeleton expansion, preserving the
skeleton's id so that namespacing is observable. -/
def skelToEl (s : Skeleton) : Element := mkEl ((s.id).getD "") s.extra

def c5Convert : List Skeleton → List Element := fun sks => sks.map skelToEl

/-- An upstream SSE line whose delta content is a string token. -/
def c10Line : String :=
  "data: \x7b\"choices\":[\x7b\"delta\":\x7b\"content\":\"Hi\"\x7d\x7d]\x7d"

/-- An upstream SSE line whose delta content is the JSON number 5 (truthy but
not a string). -/
def c10Bad : String :=
  "data: \x7b\"choices\":[\x7b\"delta\":\x7b\"content\":5\x7d\x7d]\x7d"

end Xcali

namespace Xcali

/-! ## Lemmas about the linear-element normalizer -/

theorem clampBinding_idem (ob : Option Binding) :
    clampBinding (clampBinding ob) = clampBinding ob := by
  cases ob with
  | none => rfl
  | some b =>
    cases hb : b.focus with
    | none => simp [clampBinding, hb]
    | some f =>
      have h1 : max (-1 : ℚ) (min 1 f) ≤ 1 := max_le (by norm_num) (min_le_left _ _)
      have h2 : (-1 : ℚ) ≤ max (-1) (min 1 f) := le_max_left _ _
      simp [clampBinding, hb, min_eq_right h1, max_eq_right h2]

theorem clampOne_clampOne (el : Element) : clampOne (clampOne el) = clampOne el := by
  cases el
  simp [clampOne, clampBinding_idem]

theorem clampOne_type (el : Element) : (clampOne el).type = el.type := rfl

theorem clampOne_x (el : Element) : (clampOne el).x = el.x := rfl

theorem clampOne_y (el : Element) : (clampOne el).y = el.y := rfl

theorem clampOne_points (el : Element) : (clampOne el).points = el.points := rfl

theorem shiftOne_cons (el : Element) (dx dy : ℚ) (ps : List (ℚ × ℚ))
    (h : el.points = (dx, dy) :: ps) :
    shiftOne el =
      if dx ≠ 0 ∨ dy ≠ 0 then
        { el with
          x := el.x + dx
          y := el.y + dy
          points := ((dx, dy) :: ps).map (fun q => (q.1 - dx, q.2 - dy)) }
      else el := by
  cases el
  simp only at h
  subst h
  rfl

theorem shiftOne_type (el : Element) : (shiftOne el).type = el.type := by
  rcases hp : el.points with _ | ⟨⟨dx, dy⟩, ps⟩
  · cases el; simp only at hp; subst hp; rfl
  · rw [shiftOne_cons el dx dy ps hp]
    split <;> rfl

theorem shiftOne_length (el : Element) :
    (shiftOne el).points.length = el.points.length := by
  rcases hp : el.points with _ | ⟨⟨dx, dy⟩, ps⟩
  · cases el; simp only at hp; subst hp; rfl
  · rw [shiftOne_cons el dx dy ps hp]
    split
    · simp [hp]
    · rw [hp]

theorem shiftOne_x (el : Element) (dx dy : ℚ) (ps : List (ℚ × ℚ))
    (h : el.points = (dx, dy) :: ps) : (shiftOne el).x = el.x + dx := by
  rw [shiftOne_cons el dx dy ps h]
  split
  · rfl
  · next hn =>
    push_neg at hn
    rw [hn.1, add_zero]

theorem shiftOne_y (el : Element) (dx dy : ℚ) (ps : List (ℚ × ℚ))
    (h : el.points = (dx, dy) :: ps) : (shiftOne el).y = el.y + dy := by
  rw [shiftOne_cons el dx dy ps h]
  split
  · rfl
  · next hn =>
    push_neg at hn
    rw [hn.2, add_zero]

theorem shiftOne_points (el : Element) (dx dy : ℚ) (ps : List (ℚ × ℚ))
    (h : el.points = (dx, dy) :: ps) :
    (shiftOne el).points = el.points.map (fun q => (q.1 - dx, q.2 - dy)) := by
  rw [shiftOne_cons el dx dy ps h]
  split
  · simp [h]
  · next hn =>
    push_neg at hn
    rw [hn.1, hn.2]
    simp [h]

theorem shiftOne_startBinding (el : Element) :
    (shiftOne el).startBinding = el.startBinding := by
  rcases hp : el.points with _ | ⟨⟨dx, dy⟩, ps⟩
  · cases el; simp only at hp; subst hp; rfl
  · rw [shiftOne_cons el dx dy ps hp]
    split <;> rfl

theorem shiftOne_endBinding (el : Element) :
    (shiftOne el).endBinding = el.endBinding := by
  rcases hp : el.points with _ | ⟨⟨dx, dy⟩, ps⟩
  · cases el; simp only at hp; subst hp; rfl
  · rw [shiftOne_cons el dx dy ps hp]
    split <;> rfl

theorem shiftOne_head_zero (el : Element) (h : el.points ≠ []) :
    ∃ ps, (shiftOne el).points = (0, 0) :: ps := by
  rcases hp : el.points with _ | ⟨⟨dx, dy⟩, ps⟩
  · exact absurd hp h
  · rw [shiftOne_cons el dx dy ps hp]
    split
    · exact ⟨ps.map (fun q => (q.1 - dx, q.2 - dy)), by simp⟩
    · next hn =>
      push_neg at hn
      exact ⟨ps, by rw [hp, hn.1, hn.2]⟩

theorem normalizeOne_of_cond (el : Element)
    (hc : (el.type = "arrow" ∨ el.type = "line") ∧ 2 ≤ el.points.length) :
    normalizeOne el = clampOne (shiftOne el) := by
  simp [normalizeOne, hc]

theorem normalizeOne_of_not_cond (el : Element)
    (hc : ¬ ((el.type = "arrow" ∨ el.type = "line") ∧ 2 ≤ el.points.length)) :
    normalizeOne el = el := by
  simp only [normalizeOne, if_neg hc]

theorem normalizeOne_idem (el : Element) :
    normalizeOne (normalizeOne el) = normalizeOne el := by
  by_cases hc : (el.type = "arrow" ∨ el.type = "line") ∧ 2 ≤ el.points.length
  · rw [normalizeOne_of_cond el hc]
    have hty : (clampOne (shiftOne el)).type = el.type := by
      rw [clampOne_type, shiftOne_type]
    have hlen : (clampOne (shiftOne el)).points.length = el.points.length := by
      rw [clampOne_points, shiftOne_length]
    have hc2 : ((clampOne (shiftOne el)).type = "arrow" ∨
        (clampOne (shiftOne el)).type = "line") ∧
        2 ≤ (clampOne (shiftOne el)).points.length := by
      rw [hty, hlen]; exact hc
    rw [normalizeOne_of_cond _ hc2]
    have hne : el.points ≠ [] := by
      intro h
      rw [h] at hc
      simp at hc
    obtain ⟨ps, hps⟩ := shiftOne_head_zero el hne
    have hcp : (clampOne (shiftOne el)).points = (0, 0) :: ps := by
      rw [clampOne_points, hps]
    have hsh : shiftOne (clampOne (shiftOne el)) = clampOne (shiftOne el) := by
      rw [shiftOne_cons _ 0 0 ps hcp]
      simp
    rw [hsh, clampOne_clampOne]
  · rw [normalizeOne_of_not_cond el hc, normalizeOne_of_not_cond el hc]

theorem clampBinding_bounds (ob : Option Binding) (b : Binding) (f : ℚ)
    (h : clampBinding ob = some b) (hf : b.focus = some f) :
    -1 ≤ f ∧ f ≤ 1 := by
  cases ob with
  | none => simp [clampBinding] at h
  | some b0 =>
    cases hb : b0.focus with
    | none =>
      rw [clampBinding, hb] at h
      injection h with h
      rw [← h, hb] at hf
      cases hf
    | some f0 =>
      rw [clampBinding, hb] at h
      injection h with h
      rw [← h] at hf
      simp only at hf
      injection hf with hf
      subst hf
      exact ⟨le_max_left _ _, max_le (by norm_num) (min_le_left _ _)⟩

theorem zip_map_snd {α β : Type} (f : α → β) (l : List α) :
    ∀ p ∈ l.zip (l.map f), p.2 = f p.1 := by
  induction l with
  | nil => intro p hp; cases hp
  | cons a t ih =>
    intro p hp
    rw [List.map_cons, List.zip_cons_cons] at hp
    rcases List.mem_cons.mp hp with rfl | hp
    · rfl
    · exact ih p hp

/-! ## Claim C3 (corrected) -/

/-- C3 counterexample: the claim as stated fails.  An arrow with fewer than
two points is skipped by `normalizeLinearElements` before the focus clamp, so
its out-of-range focus 5 survives normalization. -/
theorem c3_counterexample :
    normalizeLinearElements [c3El] = [c3El] ∧
    c3El.type = "arrow" ∧
    c3El.startBinding = some bind5 ∧
    bind5.focus = some 5 ∧
    ¬ ((5 : ℚ) ≤ 1) := by
  refine ⟨?_, rfl, rfl, rfl, by norm_num⟩
  have h : normalizeOne c3El = c3El :=
    normalizeOne_of_not_cond c3El (by intro hc; simpa [c3El] using hc.2)
  simp [normalizeLinearElements, h]

/-- C3 (amended): after `normalizeLinearElements`, every arrow or line
element with at least two points whose `startBinding` (resp. `endBinding`)
is present with a numeric `focus` has that focus in [-1, 1]. -/
theorem c3_focus_clamped (elements : List Element) :
    ∀ el ∈ normalizeLinearElements elements,
    (el.type = "arrow" ∨ el.type = "line") → 2 ≤ el.points.length →
    ∀ b f, (el.startBinding = some b ∨ el.endBinding = some b) →
    b.focus = some f → -1 ≤ f ∧ f ≤ 1 := by
  intro el hmem ht hlen b f hb hf
  rw [normalizeLinearElements, List.mem_map] at hmem
  obtain ⟨e, _, rfl⟩ := hmem
  by_cases hc : (e.type = "arrow" ∨ e.type = "line") ∧ 2 ≤ e.points.length
  · rw [normalizeOne_of_cond e hc] at hb
    rcases hb with hb | hb
    · exact clampBinding_bounds (shiftOne e).startBinding b f hb hf
    · exact clampBinding_bounds (shiftOne e).endBinding b f hb hf
  · rw [normalizeOne_of_not_cond e hc] at ht hlen
    exact absurd ⟨ht, hlen⟩ hc

/-- C3 witness: a concrete arrow with two points and focus 5; the amended
theorem applies and bounds the clamped focus. -/
theorem c3_focus_clamped_witness : -1 ≤ (1 : ℚ) ∧ (1 : ℚ) ≤ 1 := by
  have hc : (c3Wel.type = "arrow" ∨ c3Wel.type = "line") ∧ 2 ≤ c3Wel.points.length :=
    ⟨Or.inl rfl, by simp [c3Wel]⟩
  have hmem : normalizeOne c3Wel ∈ normalizeLinearElements [c3Wel] := by
    simp [normalizeLinearElements]
  have hb : (normalizeOne c3Wel).startBinding =
      some { elementId := "r1", focus := some 1, gap := 4 } := by
    rw [normalizeOne_of_cond c3Wel hc]
    show clampBinding (shiftOne c3Wel).startBinding = _
    rw [shiftOne_startBinding]
    show clampBinding (some bind5) = _
    simp [clampBinding, bind5]
  exact c3_focus_clamped [c3Wel] (normalizeOne c3Wel) hmem
    (by
      rw [normalizeOne_of_cond c3Wel hc, clampOne_type, shiftOne_type]
      exact Or.inl rfl)
    (by
      rw [normalizeOne_of_cond c3Wel hc, clampOne_points, shiftOne_length]
      simp [c3Wel])
    _ 1 (Or.inl hb) rfl

/-! ## Claim C4 (confirmed) -/

/-- C4: for every arrow or line element paired with its normalized form, if
it has at least two points then `x`,`y` are shifted by the first point
`(dx,dy)`, every point has `(dx,dy)` subtracted, the first point of the
result is the origin, and every point's absolute coordinates are unchanged;
an element with fewer than two points is left untouched. -/
theorem c4_origin_normalization (elements : List Element) :
    ∀ p ∈ elements.zip (normalizeLinearElements elements),
    (p.1.type = "arrow" ∨ p.1.type = "line") →
    ((∀ dx dy q1 rest, p.1.points = (dx, dy) :: q1 :: rest →
      p.2.x = p.1.x + dx ∧ p.2.y = p.1.y + dy ∧
      p.2.points = p.1.points.map (fun q => (q.1 - dx, q.2 - dy)) ∧
      p.2.points.head? = some (0, 0) ∧
      ∀ i (h1 : i < p.1.points.length) (h2 : i < p.2.points.length),
        p.2.x + (p.2.points.get ⟨i, h2⟩).1 = p.1.x + (p.1.points.get ⟨i, h1⟩).1 ∧
        p.2.y + (p.2.points.get ⟨i, h2⟩).2 = p.1.y + (p.1.points.get ⟨i, h1⟩).2) ∧
     (p.1.points.length < 2 → p.2 = p.1)) := by
  intro p hp ht
  rw [normalizeLinearElements] at hp
  have h2 := zip_map_snd normalizeOne elements p hp
  constructor
  · intro dx dy q1 rest hpts
    have hc : (p.1.type = "arrow" ∨ p.1.type = "line") ∧ 2 ≤ p.1.points.length := by
      refine ⟨ht, ?_⟩
      rw [hpts]
      simp
    have hval : p.2 = clampOne (shiftOne p.1) := by
      rw [h2, normalizeOne_of_cond p.1 hc]
    have hx : p.2.x = p.1.x + dx := by
      rw [hval, clampOne_x, shiftOne_x p.1 dx dy (q1 :: rest) hpts]
    have hy : p.2.y = p.1.y + dy := by
      rw [hval, clampOne_y, shiftOne_y p.1 dx dy (q1 :: rest) hpts]
    have hpts2 : p.2.points = p.1.points.map (fun q => (q.1 - dx, q.2 - dy)) := by
      rw [hval, clampOne_points, shiftOne_points p.1 dx dy (q1 :: rest) hpts]
    refine ⟨hx, hy, hpts2, ?_, ?_⟩
    · rw [hpts2, hpts]
      simp
    · intro i hi1 hi2
      have hg : (p.2.points.get ⟨i, hi2⟩) =
          ((p.1.points.get ⟨i, hi1⟩).1 - dx, (p.1.points.get ⟨i, hi1⟩).2 - dy) := by
        have := List.get_of_eq hpts2 ⟨i, hi2⟩
        rw [this, List.get_map]
      rw [hg, hx, hy]
      constructor <;> ring
  · intro hshort
    rw [h2, normalizeOne_of_not_cond p.1 (by
      intro hc
      exact absurd hc.2 (not_le.mpr hshort))]

/-- C4 witness: the concrete arrow `c4El` with first point (1,2) is shifted
accordingly. -/
theorem c4_origin_normalization_witness :
    (normalizeOne c4El).x = c4El.x + 1 ∧ (normalizeOne c4El).y = c4El.y + 2 := by
  have hp : (c4El, normalizeOne c4El) ∈ [c4El].zip (normalizeLinearElements [c4El]) := by
    simp [normalizeLinearElements]
  have h := (c4_origin_normalization [c4El] (c4El, normalizeOne c4El) hp
    (Or.inl rfl)).1 1 2 (4, 6) [] rfl
  exact ⟨h.1, h.2.1⟩

/-! ## Claim C6 (confirmed) -/

/-- C6: `normalizeLinearElements` is idempotent. -/
theorem normalizeLinearElements_idem (elements : List Element) :
    normalizeLinearElements (normalizeLinearElements elements) =
      normalizeLinearElements elements := by
  rw [normalizeLinearElements, normalizeLinearElements, List.map_map]
  exact List.map_congr_left (fun el _ => normalizeOne_idem el)

/-! ## Lemmas about the JavaScript map model -/

theorem str_beq_comm (a b : String) : (a == b) = (b == a) := by
  by_cases h : a = b
  · subst h; rfl
  · simp [h, Ne.symm h]

theorem jsMapSet_of_not_has {α : Type} (m : List (String × α)) (k : String)
    (v : α) (h : jsMapHas m k = false) : jsMapSet m k v = m ++ [(k, v)] := by
  rw [jsMapHas] at h
  simp [jsMapSet, h]

theorem jsMapSet_of_has {α : Type} (m : List (String × α)) (k : String)
    (v : α) (h : jsMapHas m k = true) : jsMapSet m k v = setVal m k v := by
  rw [jsMapHas] at h
  simp [jsMapSet, setVal, h]

theorem setVal_of_not_has {α : Type} (m : List (String × α)) (k : String)
    (v : α) (h : jsMapHas m k = false) : setVal m k v = m := by
  rw [jsMapHas] at h
  rw [setVal]
  have hall : ∀ p ∈ m, (p.1 == k) = false := by
    intro p hp
    have hnp := (List.any_eq_false.mp h) p hp
    cases hb : (p.1 == k)
    · rfl
    · exact absurd hb hnp
  calc m.map (fun p => if p.1 == k then (k, v) else p) = m.map id :=
        List.map_congr_left (fun p hp => by rw [hall p hp]; rfl)
    _ = m := List.map_id m

theorem setVal_append {α : Type} (m1 m2 : List (String × α)) (k : String) (v : α) :
    setVal (m1 ++ m2) k v = setVal m1 k v ++ setVal m2 k v := by
  rw [setVal, setVal, setVal, List.map_append]

theorem jsMapHas_set_self {α : Type} (m : List (String × α)) (k : String) (v : α) :
    jsMapHas (jsMapSet m k v) k = true := by
  by_cases h : jsMapHas m k = true
  · rw [jsMapSet_of_has m k v h, jsMapHas, setVal]
    rw [jsMapHas] at h
    obtain ⟨p, hp, hpk⟩ := List.any_eq_true.mp h
    refine List.any_eq_true.mpr ⟨(k, v), ?_, by simp⟩
    exact List.mem_map.mpr ⟨p, hp, by simp [hpk]⟩
  · rw [Bool.not_eq_true] at h
    rw [jsMapSet_of_not_has m k v h, jsMapHas]
    refine List.any_eq_true.mpr ⟨(k, v), by simp, by simp⟩

theorem setVal_keys {α : Type} (m : List (String × α)) (k : String) (v : α) :
    (setVal m k v).map Prod.fst = m.map Prod.fst := by
  rw [setVal, List.map_map]
  refine List.map_congr_left (fun p _ => ?_)
  by_cases h : p.1 = k
  · simp [Function.comp, h]
  · simp [Function.comp, h]

theorem jsMapHas_eq_keys {α : Type} (m : List (String × α)) (k : String) :
    jsMapHas m k = (m.map Prod.fst).any (fun s => s == k) := by
  rw [jsMapHas]
  induction m with
  | nil => rfl
  | cons p t ih => simp [List.any_cons, ih]

theorem jsMapHas_setVal {α : Type} (m : List (String × α)) (k k' : String) (v : α) :
    jsMapHas (setVal m k v) k' = jsMapHas m k' := by
  rw [jsMapHas_eq_keys, jsMapHas_eq_keys, setVal_keys]

theorem jsMapHas_set_mono {α : Type} (m : List (String × α)) (j k : String) (v : α)
    (h : jsMapHas m k = true) : jsMapHas (jsMapSet m j v) k = true := by
  by_cases hj : jsMapHas m j = true
  · rw [jsMapSet_of_has m j v hj, jsMapHas_setVal]
    exact h
  · rw [Bool.not_eq_true] at hj
    rw [jsMapSet_of_not_has m j v hj, jsMapHas, List.any_append]
    rw [jsMapHas] at h
    rw [h]
    rfl

theorem setVal_setVal {α : Type} (m : List (String × α)) (k : String) (v1 v2 : α) :
    setVal (setVal m k v1) k v2 = setVal m k v2 := by
  rw [setVal, setVal, setVal, List.map_map]
  refine List.map_congr_left (fun p _ => ?_)
  by_cases h : p.1 = k
  · simp [Function.comp, h]
  · simp [Function.comp, h]

theorem jsMapSet_set_same {α : Type} (m : List (String × α)) (k : String) (v1 v2 : α) :
    jsMapSet m k v2 = setVal (jsMapSet m k v1) k v2 := by
  by_cases h : jsMapHas m k = true
  · rw [jsMapSet_of_has m k v1 h, jsMapSet_of_has m k v2 h, setVal_setVal]
  · rw [Bool.not_eq_true] at h
    rw [jsMapSet_of_not_has m k v1 h, jsMapSet_of_not_has m k v2 h, setVal_append,
      setVal_of_not_has m k v2 h]
    simp [setVal]

theorem setVal_jsMapSet_comm {α : Type} (m : List (String × α)) (k j : String)
    (v w : α) (hne : j ≠ k) :
    jsMapSet (setVal m k v) j w = setVal (jsMapSet m j w) k v := by
  by_cases hj : jsMapHas m j = true
  · have hj' : jsMapHas (setVal m k v) j = true := by rw [jsMapHas_setVal]; exact hj
    rw [jsMapSet_of_has _ j w hj', jsMapSet_of_has m j w hj]
    rw [setVal, setVal, setVal, setVal, List.map_map, List.map_map]
    refine List.map_congr_left (fun p _ => ?_)
    by_cases hpk : p.1 = k
    · have hpj : ¬ p.1 = j := by rw [hpk]; exact fun hh => hne hh.symm
      simp [Function.comp, hpk, hpj, Ne.symm hne]
    · by_cases hpj : p.1 = j
      · simp [Function.comp, hpk, hpj, hne]
      · simp [Function.comp, hpk, hpj]
  · rw [Bool.not_eq_true] at hj
    have hj' : jsMapHas (setVal m k v) j = false := by rw [jsMapHas_setVal]; exact hj
    rw [jsMapSet_of_not_has _ j w hj', jsMapSet_of_not_has m j w hj, setVal_append]
    have : setVal [(j, w)] k v = [(j, w)] := by
      simp [setVal, hne]
    rw [this]

/-! ## Lemmas about the `modify` reconciliation -/

theorem jsMapGet_map_pair (xs : List Element) (k : String) :
    jsMapGet (xs.map (fun e => (e.id, e))) k = xs.find? (fun e => e.id == k) := by
  rw [jsMapGet, List.find?_map, Option.map_map]
  show (xs.find? (fun e => e.id == k)).map (fun e => e) = xs.find? (fun e => e.id == k)
  cases xs.find? (fun e => e.id == k) <;> rfl

theorem jsMapDelete_map_pair (xs : List Element) (k : String) :
    jsMapDelete (xs.map (fun e => (e.id, e))) k
      = (xs.filter (fun e => !(e.id == k))).map (fun e => (e.id, e)) := by
  rw [jsMapDelete, List.filter_map]
  rfl

theorem find?_filter_of_imp {α : Type} (p q : α → Bool) (l : List α)
    (himp : ∀ a, p a = true → q a = true) :
    (l.filter q).find? p = l.find? p := by
  induction l with
  | nil => rfl
  | cons a t ih =>
    by_cases hq : q a = true
    · rw [List.filter_cons, if_pos hq]
      by_cases hp : p a = true
      · rw [List.find?_cons_of_pos _ hp, List.find?_cons_of_pos _ hp]
      · rw [List.find?_cons_of_neg _ hp, List.find?_cons_of_neg _ hp]
        exact ih
    · have hp : ¬ p a = true := fun hpa => hq (himp a hpa)
      rw [List.filter_cons, if_neg hq, ih, List.find?_cons_of_neg _ hp]

theorem buildIncoming_aux (xs : List Element) :
    ∀ (m : List (String × Element)),
    (∀ e ∈ xs, e.id ≠ "") → (xs.map Element.id).Nodup →
    (∀ e ∈ xs, jsMapHas m e.id = false) →
    xs.foldl bIStep m = m ++ xs.map (fun e => (e.id, e)) := by
  induction xs with
  | nil => intro m _ _ _; simp
  | cons e t ih =>
    intro m hne hnd hfresh
    have he : e.id ≠ "" := hne e (List.mem_cons_self e t)
    have hstep : bIStep m e = m ++ [(e.id, e)] := by
      rw [bIStep, if_neg (by simp [he]),
        jsMapSet_of_not_has m e.id e (hfresh e (List.mem_cons_self e t))]
    rw [List.foldl_cons, hstep]
    rw [List.map_cons, List.nodup_cons] at hnd
    have hne' : ∀ x ∈ t, x.id ≠ "" := fun x hx => hne x (List.mem_cons_of_mem e hx)
    have hfresh' : ∀ x ∈ t, jsMapHas (m ++ [(e.id, e)]) x.id = false := by
      intro x hx
      rw [jsMapHas, List.any_append]
      have h1 : jsMapHas m x.id = false := hfresh x (List.mem_cons_of_mem e hx)
      rw [jsMapHas] at h1
      rw [h1]
      have h2 : e.id ≠ x.id := by
        intro hh
        exact hnd.1 (hh ▸ List.mem_map_of_mem Element.id hx)
      simp [h2]
    rw [ih (m ++ [(e.id, e)]) hne' hnd.2 hfresh']
    simp

theorem buildIncomingById_eq (incoming : List Element)
    (hnd : (incoming.map Element.id).Nodup) (hne : ∀ e ∈ incoming, e.id ≠ "") :
    buildIncomingById incoming = incoming.map (fun e => (e.id, e)) := by
  have h := buildIncoming_aux incoming [] hne hnd (fun e _ => rfl)
  rw [buildIncomingById, h]
  rfl

theorem applyModify_spec (existing : List Element) :
    ∀ (incoming : List Element),
    (existing.map Element.id).Nodup →
    (incoming.map Element.id).Nodup →
    (∀ e ∈ incoming, e.id ≠ "") →
    applyModify (incoming.map (fun e => (e.id, e))) existing
      = (existing.map (fun el => ((incoming.find? (fun e => e.id == el.id)).getD el)),
         (incoming.filter (fun e => !(existing.any (fun x => x.id == e.id)))).map
           (fun e => (e.id, e))) := by
  induction existing with
  | nil =>
    intro incoming _ _ _
    rw [applyModify]
    have : incoming.filter (fun e => !(([] : List Element).any (fun x => x.id == e.id)))
        = incoming := by
      refine List.filter_eq_self.mpr (fun a _ => ?_)
      rfl
    rw [List.map_nil, this]
  | cons el rest ih =>
    intro incoming hndE hndI hne
    rw [List.map_cons, List.nodup_cons] at hndE
    have hxid : ∀ x ∈ rest, x.id ≠ el.id := by
      intro x hx heq
      exact hndE.1 (heq ▸ List.mem_map_of_mem Element.id hx)
    cases hfind : incoming.find? (fun e => e.id == el.id) with
    | some r =>
      have hget : jsMapGet (incoming.map (fun e => (e.id, e))) el.id = some r := by
        rw [jsMapGet_map_pair, hfind]
      rw [applyModify, hget, jsMapDelete_map_pair]
      have hndI' : ((incoming.filter (fun e => !(e.id == el.id))).map Element.id).Nodup := by
        refine List.Nodup.sublist ?_ hndI
        exact List.Sublist.map Element.id (List.filter_sublist incoming)
      have hne' : ∀ e ∈ incoming.filter (fun e => !(e.id == el.id)), e.id ≠ "" :=
        fun e hemem => hne e (List.mem_of_mem_filter hemem)
      rw [ih (incoming.filter (fun e => !(e.id == el.id))) hndE.2 hndI' hne']
      dsimp only
      rw [Prod.mk.injEq]
      refine ⟨?_, ?_⟩
      · rw [List.map_cons]
        refine congrArg₂ List.cons ?_ ?_
        · rw [hfind]
          rfl
        · refine List.map_congr_left (fun x hx => ?_)
          have hfeq : (incoming.filter (fun e => !(e.id == el.id))).find?
              (fun e => e.id == x.id) = incoming.find? (fun e => e.id == x.id) := by
            refine find?_filter_of_imp _ _ incoming (fun a ha => ?_)
            have haeq : a.id = x.id := eq_of_beq ha
            rw [haeq]
            simp [hxid x hx]
          rw [hfeq]
      · rw [List.filter_filter]
        refine congrArg (List.map _) (List.filter_congr (fun e _ => ?_))
        rw [List.any_cons, Bool.not_or, Bool.and_comm, str_beq_comm el.id e.id]
    | none =>
      have hget : jsMapGet (incoming.map (fun e => (e.id, e))) el.id = none := by
        rw [jsMapGet_map_pair, hfind]
      rw [applyModify, hget]
      rw [ih incoming hndE.2 hndI hne]
      dsimp only
      rw [Prod.mk.injEq]
      refine ⟨?_, ?_⟩
      · rw [List.map_cons, hfind]
        rfl
      · refine congrArg (List.map _) (List.filter_congr (fun e hemem => ?_))
        have hno : ∀ a ∈ incoming, ¬ (a.id == el.id) = true := List.find?_eq_none.mp hfind
        have h1 : (el.id == e.id) = false := by
          rw [str_beq_comm]
          cases hb : (e.id == el.id)
          · rfl
          · exact absurd hb (hno e hemem)
        rw [List.any_cons, h1]
        rfl

/-! ## Claim C1 (corrected) -/

/-- C1 counterexample: the claim as stated fails for a batch with duplicated
identifiers.  With an empty existing scene and incoming `[dup1, dup2]` (both
id "d"), the code keeps only the later duplicate, while the claimed behavior
("appends exactly those incoming elements whose identifiers matched no
existing element") would keep both. -/
theorem c1_counterexample :
    modifyReconcile [] [dup1, dup2] = [dup2] ∧
    modifySpecMerge [] [dup1, dup2] = [dup1, dup2] ∧
    ([dup2] : List Element) ≠ [dup1, dup2] := by
  refine ⟨by decide, by decide, by decide⟩

/-- C1 (amended): for an existing scene with pairwise distinct identifiers
and an incoming batch whose identifiers are pairwise distinct and non-empty,
`modify` reconciliation substitutes in place each existing element whose id
matches an incoming one, keeps all other existing elements unchanged in
order, and appends exactly the unmatched incoming elements. -/
theorem modifyReconcile_eq_spec (existing incoming : List Element)
    (hndE : (existing.map Element.id).Nodup)
    (hndI : (incoming.map Element.id).Nodup)
    (hne : ∀ e ∈ incoming, e.id ≠ "") :
    modifyReconcile existing incoming = modifySpecMerge existing incoming := by
  rw [modifyReconcile, buildIncomingById_eq incoming hndI hne,
    applyModify_spec existing incoming hndE hndI hne]
  dsimp only
  rw [List.map_map]
  rw [modifySpecMerge]
  refine congrArg₂ List.append rfl ?_
  have : ((fun p : String × Element => p.2) ∘ (fun e : Element => (e.id, e)))
      = fun e => e := rfl
  rw [this]
  have hid : (incoming.filter (fun e => !(existing.any (fun x => x.id == e.id)))).map
      (fun e => e) = incoming.filter (fun e => !(existing.any (fun x => x.id == e.id))) := by
    exact List.map_id' _
  rw [hid]

/-- C1 witness: the spec's own example — existing `[A,B,C]` (ids a,b,c) with
incoming `[B',D]` (ids b,d) reconciles to `[A,B',C,D]`. -/
theorem modifyReconcile_eq_spec_witness :
    modifyReconcile [elA, elB, elC] [elB2, elD] = [elA, elB2, elC, elD] := by
  have h := modifyReconcile_eq_spec [elA, elB, elC] [elB2, elD]
    (by decide) (by decide) (by decide)
  rw [h]
  decide

/-! ## Claim C9 (confirmed) -/

theorem bIStep_setVal_comm (m : List (String × Element)) (k : String)
    (v : Element) (el : Element) (hne : el.id ≠ k) :
    bIStep (setVal m k v) el = setVal (bIStep m el) k v := by
  rw [bIStep, bIStep]
  by_cases h : el.id = ""
  · rw [if_pos (by simp [h]), if_pos (by simp [h])]
  · rw [if_neg (by simp [h]), if_neg (by simp [h])]
    exact setVal_jsMapSet_comm m k el.id v el hne

theorem jsMapHas_bIStep_mono (m : List (String × Element)) (el : Element)
    (k : String) (h : jsMapHas m k = true) : jsMapHas (bIStep m el) k = true := by
  rw [bIStep]
  split
  · exact h
  · exact jsMapHas_set_mono m el.id k el h

theorem foldl_bIStep_has_mono (l : List Element) :
    ∀ m, jsMapHas m k = true → jsMapHas (List.foldl bIStep m l) k = true := by
  induction l with
  | nil => intro m h; exact h
  | cons a t ih =>
    intro m h
    rw [List.foldl_cons]
    exact ih (bIStep m a) (jsMapHas_bIStep_mono m a k h)

theorem foldl_bIStep_setVal (k : String) (v : Element) (l : List Element) :
    ∀ m, (∀ e ∈ l, e.id ≠ k) →
    List.foldl bIStep (setVal m k v) l = setVal (List.foldl bIStep m l) k v := by
  induction l with
  | nil => intro m _; rfl
  | cons a t ih =>
    intro m hl
    rw [List.foldl_cons, List.foldl_cons,
      bIStep_setVal_comm m k v a (hl a (List.mem_cons_self a t))]
    exact ih (bIStep m a) (fun e he => hl e (List.mem_cons_of_mem a he))

/-- C9: when two incoming elements of one batch share an identifier, the
`modify` merge behaves exactly as if the earlier duplicate were removed and
the later one put in its place: the later value takes effect (substituting a
matching existing element, or being appended at the earlier duplicate's map
position if unmatched), and the earlier duplicate reaches the scene
nowhere. -/
theorem modifyReconcile_last_duplicate_wins (existing l1 l2 l3 : List Element)
    (e1 e2 : Element) (hid : e1.id = e2.id) (hne2 : e2.id ≠ "")
    (hl2 : ∀ e ∈ l2, e.id ≠ e2.id) :
    modifyReconcile existing (l1 ++ e1 :: (l2 ++ e2 :: l3))
      = modifyReconcile existing (l1 ++ e2 :: (l2 ++ l3)) := by
  suffices h : buildIncomingById (l1 ++ e1 :: (l2 ++ e2 :: l3))
      = buildIncomingById (l1 ++ e2 :: (l2 ++ l3)) by
    rw [modifyReconcile, modifyReconcile, h]
  rw [buildIncomingById, buildIncomingById, List.foldl_append, List.foldl_append,
    List.foldl_cons, List.foldl_cons]
  have hne1 : e1.id ≠ "" := by rw [hid]; exact hne2
  have hs1 : bIStep (List.foldl bIStep [] l1) e1
      = jsMapSet (List.foldl bIStep [] l1) e2.id e1 := by
    rw [bIStep, if_neg (by simp [hne1]), hid]
  have hs2 : bIStep (List.foldl bIStep [] l1) e2
      = jsMapSet (List.foldl bIStep [] l1) e2.id e2 := by
    rw [bIStep, if_neg (by simp [hne2])]
  rw [hs1, hs2, jsMapSet_set_same (List.foldl bIStep [] l1) e2.id e1 e2,
    List.foldl_append, List.foldl_append, List.foldl_cons]
  rw [foldl_bIStep_setVal e2.id e2 l2 (jsMapSet (List.foldl bIStep [] l1) e2.id e1) hl2]
  have hhas : jsMapHas (List.foldl bIStep
      (jsMapSet (List.foldl bIStep [] l1) e2.id e1) l2) e2.id = true :=
    foldl_bIStep_has_mono l2 _ (jsMapHas_set_self _ _ _)
  rw [show bIStep (List.foldl bIStep
      (jsMapSet (List.foldl bIStep [] l1) e2.id e1) l2) e2
      = setVal (List.foldl bIStep
        (jsMapSet (List.foldl bIStep [] l1) e2.id e1) l2) e2.id e2 from by
    rw [bIStep, if_neg (by simp [hne2]), jsMapSet_of_has _ _ _ hhas]]

/-- C9 witness: with batch `[e9a, e9b]` (both id "w"), the merge equals the
merge of the batch `[e9b]` alone. -/
theorem modifyReconcile_last_duplicate_wins_witness :
    modifyReconcile [e9x] [e9a, e9b] = modifyReconcile [e9x] [e9b] :=
  modifyReconcile_last_duplicate_wins [e9x] [] [] [] e9a e9b rfl
    (by decide) (fun e he => absurd he (List.not_mem_nil e))

/-! ## Association-list get lemmas and the id-map characterization -/

theorem jsMapGet_append {α : Type} (m1 m2 : List (String × α)) (k : String) :
    jsMapGet (m1 ++ m2) k = (jsMapGet m1 k).or (jsMapGet m2 k) := by
  rw [jsMapGet, jsMapGet, jsMapGet, List.find?_append]
  cases m1.find? (fun p => p.1 == k) <;> cases m2.find? (fun p => p.1 == k) <;> rfl

theorem jsMapGet_not_has {α : Type} (m : List (String × α)) (k : String)
    (h : jsMapHas m k = false) : jsMapGet m k = none := by
  rw [jsMapGet]
  rw [jsMapHas] at h
  have hn : m.find? (fun p => p.1 == k) = none :=
    List.find?_eq_none.mpr (fun x hx => List.any_eq_false.mp h x hx)
  rw [hn]
  rfl

theorem jsMapGet_singleton_self {α : Type} (k : String) (v : α) :
    jsMapGet [(k, v)] k = some v := by
  rw [jsMapGet, List.find?_cons_of_pos _ (by simp)]
  rfl

theorem jsMapGet_setVal_self {α : Type} (m : List (String × α)) (k : String)
    (v : α) (h : jsMapHas m k = true) : jsMapGet (setVal m k v) k = some v := by
  induction m with
  | nil => simp [jsMapHas] at h
  | cons p t ih =>
    rw [jsMapHas, List.any_cons] at h
    rw [setVal, List.map_cons, jsMapGet]
    by_cases hp : p.1 = k
    · rw [if_pos (by simp [hp]), List.find?_cons_of_pos _ (by simp)]
      rfl
    · have hb : (p.1 == k) = false := by simp [hp]
      rw [if_neg (by simp [hb]), List.find?_cons_of_neg _ (by simp [hb])]
      have ht : t.any (fun p => p.1 == k) = true := by
        rw [hb, Bool.false_or] at h
        exact h
      have hres := ih (by rw [jsMapHas]; exact ht)
      rw [jsMapGet, setVal] at hres
      exact hres

theorem jsMapGet_setVal_other {α : Type} (m : List (String × α)) (k k' : String)
    (v : α) (h : k' ≠ k) : jsMapGet (setVal m k v) k' = jsMapGet m k' := by
  induction m with
  | nil => rfl
  | cons p t ih =>
    rw [setVal, List.map_cons, jsMapGet, jsMapGet]
    have hih := ih
    rw [jsMapGet, jsMapGet, setVal] at hih
    by_cases hp : p.1 = k
    · rw [if_pos (by simp [hp]),
        List.find?_cons_of_neg _ (by simp [Ne.symm h]),
        List.find?_cons_of_neg _ (by simp [hp, Ne.symm h])]
      exact hih
    · rw [if_neg (by simp [hp])]
      by_cases hk' : p.1 = k'
      · rw [List.find?_cons_of_pos _ (by simp [hk']),
          List.find?_cons_of_pos _ (by simp [hk'])]
      · rw [List.find?_cons_of_neg _ (by simp [hk']),
          List.find?_cons_of_neg _ (by simp [hk'])]
        exact hih

theorem jsMapGet_set_self {α : Type} (m : List (String × α)) (k : String) (v : α) :
    jsMapGet (jsMapSet m k v) k = some v := by
  by_cases h : jsMapHas m k = true
  · rw [jsMapSet_of_has m k v h]
    exact jsMapGet_setVal_self m k v h
  · rw [Bool.not_eq_true] at h
    rw [jsMapSet_of_not_has m k v h, jsMapGet_append, jsMapGet_not_has m k h,
      jsMapGet_singleton_self]
    rfl

theorem jsMapGet_set_other {α : Type} (m : List (String × α)) (k k' : String)
    (v : α) (h : k' ≠ k) : jsMapGet (jsMapSet m k v) k' = jsMapGet m k' := by
  by_cases hh : jsMapHas m k = true
  · rw [jsMapSet_of_has m k v hh]
    exact jsMapGet_setVal_other m k k' v h
  · rw [Bool.not_eq_true] at hh
    rw [jsMapSet_of_not_has m k v hh, jsMapGet_append]
    have hnone : jsMapGet [(k, v)] k' = none := by
      rw [jsMapGet, List.find?_cons_of_neg _ (by simp [Ne.symm h])]
      rfl
    rw [hnone]
    cases jsMapGet m k' <;> rfl

theorem jsMapHas_eq_isSome {α : Type} (m : List (String × α)) (k : String) :
    jsMapHas m k = (jsMapGet m k).isSome := by
  rw [jsMapHas, jsMapGet]
  induction m with
  | nil => rfl
  | cons p t ih =>
    rw [List.any_cons]
    by_cases hp : p.1 = k
    · rw [List.find?_cons_of_pos _ (by simp [hp])]
      simp [hp]
    · have hb : (p.1 == k) = false := by simp [hp]
      rw [List.find?_cons_of_neg _ (by simp [hb]), hb, Bool.false_or]
      exact ih

theorem mkIdMap_get_aux (pfx : String) (a : String) (sks : List Skeleton) :
    ∀ m, jsMapGet (sks.foldl (idMapStep pfx) m) a
      = if a ∈ batchIds sks then some (pfx ++ a) else jsMapGet m a := by
  induction sks with
  | nil => intro m; simp [batchIds]
  | cons s t ih =>
    intro m
    rw [List.foldl_cons]
    cases hsid : s.id with
    | none =>
      have hstep : idMapStep pfx m s = m := by rw [idMapStep, hsid]
      have hbatch : batchIds (s :: t) = batchIds t := by
        rw [batchIds, batchIds, List.filterMap_cons, hsid]
      rw [hstep, ih m, hbatch]
    | some i =>
      have hstep : idMapStep pfx m s = jsMapSet m i (pfx ++ i) := by
        rw [idMapStep, hsid]
      have hbatch : batchIds (s :: t) = i :: batchIds t := by
        rw [batchIds, batchIds, List.filterMap_cons, hsid]
      rw [hstep, ih (jsMapSet m i (pfx ++ i)), hbatch]
      by_cases hat : a ∈ batchIds t
      · rw [if_pos hat, if_pos (List.mem_cons_of_mem i hat)]
      · rw [if_neg hat]
        by_cases hai : a = i
        · subst hai
          rw [if_pos (List.mem_cons_self a (batchIds t)), jsMapGet_set_self]
        · rw [jsMapGet_set_other m i a (pfx ++ i) hai,
            if_neg (by
              intro hmem
              rcases List.mem_cons.mp hmem with h1 | h2
              · exact hai h1
              · exact hat h2)]

theorem mkIdMap_get (pfx : String) (sks : List Skeleton) (a : String) :
    jsMapGet (mkIdMap pfx sks) a
      = if a ∈ batchIds sks then some (pfx ++ a) else none := by
  rw [mkIdMap, mkIdMap_get_aux pfx a sks []]
  by_cases h : a ∈ batchIds sks
  · rw [if_pos h, if_pos h]
  · rw [if_neg h, if_neg h]
    rfl

theorem mkIdMap_has (pfx : String) (sks : List Skeleton) (a : String) :
    jsMapHas (mkIdMap pfx sks) a = true ↔ a ∈ batchIds sks := by
  rw [jsMapHas_eq_isSome, mkIdMap_get]
  by_cases h : a ∈ batchIds sks
  · simp [h]
  · simp [h]

/-! ## Claim C2 (confirmed) -/

theorem prefixIdField_start (m : List (String × String)) (s : Skeleton) :
    (prefixIdField m s).start = s.start := by
  cases hs : s.id <;> simp [prefixIdField, hs]

theorem prefixIdField_endRef (m : List (String × String)) (s : Skeleton) :
    (prefixIdField m s).endRef = s.endRef := by
  cases hs : s.id <;> simp [prefixIdField, hs]

theorem prefixIdField_id_some (m : List (String × String)) (s : Skeleton)
    (a : String) (h : s.id = some a) :
    (prefixIdField m s).id = some ((jsMapGet m a).getD a) := by
  simp [prefixIdField, h]

theorem prefixStartField_id (m : List (String × String)) (s : Skeleton) :
    (prefixStartField m s).id = s.id := by
  rcases hs : s.start with _ | r
  · simp [prefixStartField, hs]
  · rcases hr : r.id with _ | ri
    · simp [prefixStartField, hs, hr]
    · by_cases hh : jsMapHas m ri = true
      · simp [prefixStartField, hs, hr, hh]
      · rw [Bool.not_eq_true] at hh
        simp [prefixStartField, hs, hr, hh]

theorem prefixStartField_endRef (m : List (String × String)) (s : Skeleton) :
    (prefixStartField m s).endRef = s.endRef := by
  rcases hs : s.start with _ | r
  · simp [prefixStartField, hs]
  · rcases hr : r.id with _ | ri
    · simp [prefixStartField, hs, hr]
    · by_cases hh : jsMapHas m ri = true
      · simp [prefixStartField, hs, hr, hh]
      · rw [Bool.not_eq_true] at hh
        simp [prefixStartField, hs, hr, hh]

theorem prefixEndField_id (m : List (String × String)) (s : Skeleton) :
    (prefixEndField m s).id = s.id := by
  rcases hs : s.endRef with _ | r
  · simp [prefixEndField, hs]
  · rcases hr : r.id with _ | ri
    · simp [prefixEndField, hs, hr]
    · by_cases hh : jsMapHas m ri = true
      · simp [prefixEndField, hs, hr, hh]
      · rw [Bool.not_eq_true] at hh
        simp [prefixEndField, hs, hr, hh]

theorem prefixEndField_start (m : List (String × String)) (s : Skeleton) :
    (prefixEndField m s).start = s.start := by
  rcases hs : s.endRef with _ | r
  · simp [prefixEndField, hs]
  · rcases hr : r.id with _ | ri
    · simp [prefixEndField, hs, hr]
    · by_cases hh : jsMapHas m ri = true
      · simp [prefixEndField, hs, hr, hh]
      · rw [Bool.not_eq_true] at hh
        simp [prefixEndField, hs, hr, hh]

theorem prefixStartField_start_of_has (m : List (String × String)) (s : Skeleton)
    (r : SkelRef) (ri : String) (hs : s.start = some r) (hr : r.id = some ri)
    (hh : jsMapHas m ri = true) :
    (prefixStartField m s).start = some { r with id := jsMapGet m ri } := by
  simp [prefixStartField, hs, hr, hh]

theorem prefixStartField_start_of_not_has (m : List (String × String)) (s : Skeleton)
    (r : SkelRef) (ri : String) (hs : s.start = some r) (hr : r.id = some ri)
    (hh : jsMapHas m ri = false) :
    (prefixStartField m s).start = s.start := by
  simp [prefixStartField, hs, hr, hh]

theorem prefixEndField_endRef_of_has (m : List (String × String)) (s : Skeleton)
    (r : SkelRef) (ri : String) (hs : s.endRef = some r) (hr : r.id = some ri)
    (hh : jsMapHas m ri = true) :
    (prefixEndField m s).endRef = some { r with id := jsMapGet m ri } := by
  simp [prefixEndField, hs, hr, hh]

theorem prefixEndField_endRef_of_not_has (m : List (String × String)) (s : Skeleton)
    (r : SkelRef) (ri : String) (hs : s.endRef = some r) (hr : r.id = some ri)
    (hh : jsMapHas m ri = false) :
    (prefixEndField m s).endRef = s.endRef := by
  simp [prefixEndField, hs, hr, hh]

theorem str_append_left_cancel {p a b : String} (h : p ++ a = p ++ b) : a = b := by
  have hd := congrArg String.data h
  rw [String.data_append, String.data_append] at hd
  exact String.ext (List.append_cancel_left hd)

theorem prefixOne_id_of_some (m : List (String × String)) (s : Skeleton)
    (a : String) (h : s.id = some a) :
    (prefixOne m s).id = some ((jsMapGet m a).getD a) := by
  rw [prefixOne, prefixEndField_id, prefixStartField_id, prefixIdField_id_some m s a h]

theorem prefixOne_start (m : List (String × String)) (s : Skeleton) :
    (prefixOne m s).start = (prefixStartField m (prefixIdField m s)).start := by
  rw [prefixOne, prefixEndField_start]

/-- C2: batch namespacing is injective on distinct identifiers within a
batch; every `start.id`/`end.id` that referenced a declared skeleton id
references the prefixed id afterwards; references to identifiers outside the
batch are left unchanged. -/
theorem prefixIds_props (c : Nat) (sks : List Skeleton) :
    (∀ p ∈ sks.zip (prefixIds c sks), ∀ q ∈ sks.zip (prefixIds c sks),
      ∀ a b : String, p.1.id = some a → q.1.id = some b → a ≠ b →
      p.2.id ≠ q.2.id) ∧
    (∀ p ∈ sks.zip (prefixIds c sks), ∀ r : SkelRef, ∀ a : String,
      (p.1.start = some r → r.id = some a → a ∈ batchIds sks →
        refIdOf p.2.start = some (pfxOf c ++ a)) ∧
      (p.1.endRef = some r → r.id = some a → a ∈ batchIds sks →
        refIdOf p.2.endRef = some (pfxOf c ++ a)) ∧
      (p.1.start = some r → r.id = some a → a ∉ batchIds sks →
        p.2.start = p.1.start) ∧
      (p.1.endRef = some r → r.id = some a → a ∉ batchIds sks →
        p.2.endRef = p.1.endRef)) := by
  have hzip : ∀ p ∈ sks.zip (prefixIds c sks),
      p.2 = prefixOne (mkIdMap (pfxOf c) sks) p.1 ∧ p.1 ∈ sks := by
    intro p hp
    refine ⟨zip_map_snd _ sks p hp, ?_⟩
    obtain ⟨x, y⟩ := p
    exact (List.mem_zip hp).1
  refine ⟨?_, ?_⟩
  · intro p hp q hq a b hpa hqb hab
    obtain ⟨hp2, hp1⟩ := hzip p hp
    obtain ⟨hq2, hq1⟩ := hzip q hq
    have hamem : a ∈ batchIds sks := by
      rw [batchIds]
      exact List.mem_filterMap.mpr ⟨p.1, hp1, hpa⟩
    have hbmem : b ∈ batchIds sks := by
      rw [batchIds]
      exact List.mem_filterMap.mpr ⟨q.1, hq1, hqb⟩
    have hpid : p.2.id = some (pfxOf c ++ a) := by
      rw [hp2, prefixOne_id_of_some _ _ a hpa, mkIdMap_get, if_pos hamem]
      rfl
    have hqid : q.2.id = some (pfxOf c ++ b) := by
      rw [hq2, prefixOne_id_of_some _ _ b hqb, mkIdMap_get, if_pos hbmem]
      rfl
    rw [hpid, hqid]
    intro heq
    injection heq with heq
    exact hab (str_append_left_cancel heq)
  · intro p hp r a
    obtain ⟨hp2, hp1⟩ := hzip p hp
    refine ⟨?_, ?_, ?_, ?_⟩
    · intro hs hr hmem
      have hhas : jsMapHas (mkIdMap (pfxOf c) sks) a = true :=
        (mkIdMap_has (pfxOf c) sks a).mpr hmem
      have hstart : (prefixIdField (mkIdMap (pfxOf c) sks) p.1).start = some r := by
        rw [prefixIdField_start, hs]
      rw [hp2, prefixOne_start,
        prefixStartField_start_of_has _ _ r a hstart hr hhas]
      show jsMapGet (mkIdMap (pfxOf c) sks) a = some (pfxOf c ++ a)
      rw [mkIdMap_get, if_pos hmem]
    · intro hs hr hmem
      have hhas : jsMapHas (mkIdMap (pfxOf c) sks) a = true :=
        (mkIdMap_has (pfxOf c) sks a).mpr hmem
      have hend : (prefixStartField (mkIdMap (pfxOf c) sks)
          (prefixIdField (mkIdMap (pfxOf c) sks) p.1)).endRef = some r := by
        rw [prefixStartField_endRef, prefixIdField_endRef, hs]
      rw [hp2, prefixOne, prefixEndField_endRef_of_has _ _ r a hend hr hhas]
      show jsMapGet (mkIdMap (pfxOf c) sks) a = some (pfxOf c ++ a)
      rw [mkIdMap_get, if_pos hmem]
    · intro hs hr hmem
      have hhas : jsMapHas (mkIdMap (pfxOf c) sks) a = false := by
        cases hb : jsMapHas (mkIdMap (pfxOf c) sks) a
        · rfl
        · exact absurd ((mkIdMap_has (pfxOf c) sks a).mp hb) hmem
      have hstart : (prefixIdField (mkIdMap (pfxOf c) sks) p.1).start = some r := by
        rw [prefixIdField_start, hs]
      rw [hp2, prefixOne_start,
        prefixStartField_start_of_not_has _ _ r a hstart hr hhas,
        prefixIdField_start]
    · intro hs hr hmem
      have hhas : jsMapHas (mkIdMap (pfxOf c) sks) a = false := by
        cases hb : jsMapHas (mkIdMap (pfxOf c) sks) a
        · rfl
        · exact absurd ((mkIdMap_has (pfxOf c) sks a).mp hb) hmem
      have hend : (prefixStartField (mkIdMap (pfxOf c) sks)
          (prefixIdField (mkIdMap (pfxOf c) sks) p.1)).endRef = some r := by
        rw [prefixStartField_endRef, prefixIdField_endRef, hs]
      rw [hp2, prefixOne, prefixEndField_endRef_of_not_has _ _ r a hend hr hhas,
        prefixStartField_endRef, prefixIdField_endRef]

/-- C2 witness: in the concrete batch `c2Sks`, the arrow's `start` reference
to the declared id "n1" is rewritten to the prefixed id, and its dangling
`end` reference to "zz" is left unchanged. -/
theorem prefixIds_props_witness :
    refIdOf (prefixOne (mkIdMap (pfxOf 0) c2Sks) c2S2).start
        = some (pfxOf 0 ++ "n1") ∧
    (prefixOne (mkIdMap (pfxOf 0) c2Sks) c2S2).endRef = c2S2.endRef := by
  have hp : (c2S2, prefixOne (mkIdMap (pfxOf 0) c2Sks) c2S2)
      ∈ c2Sks.zip (prefixIds 0 c2Sks) := by
    rw [prefixIds]
    show _ ∈ List.zip [c2S1, c2S2] [prefixOne _ c2S1, prefixOne _ c2S2]
    exact List.mem_cons_of_mem _ (List.mem_cons_self _ _)
  have h := (prefixIds_props 0 c2Sks).2
    (c2S2, prefixOne (mkIdMap (pfxOf 0) c2Sks) c2S2) hp
  refine ⟨(h c2Ref1 "n1").1 rfl rfl (by decide), ?_⟩
  exact (h c2RefZ "zz").2.2.2 rfl rfl (by decide)

/-! ## Claim C5 (corrected) -/

/-- C5 counterexample: an unrecognized action value ("insert") is NOT merged
exactly as an "add" batch — the elements are appended, but identifier
namespacing is skipped (the source applies `prefixIds` only when
`action === "add"`). -/
theorem c5_counterexample :
    handleElementsGenerated c5Convert id [] 0 [c5Sk] "insert"
      ≠ [] ++ id (normalizeLinearElements (c5Convert (prefixIds 0 [c5Sk]))) := by
  decide

/-- C5 (amended): an absent (or falsy) `action` field is read as "add"; an
"add" batch is namespaced and appended; any other unrecognized action value
is appended after the existing elements WITHOUT identifier namespacing. -/
theorem handleElementsGenerated_dispatch :
    (∀ parsed : Json, jsField parsed actionKey = none →
      actionOf parsed = Json.str (("add").data)) ∧
    (∀ (convertF : List Skeleton → List Element)
       (restoreF : List Element → List Element)
       (existing : List Element) (batchCounter : Nat)
       (skeletons : List Skeleton) (action : String),
      action ≠ "add" → action ≠ "replace" → action ≠ "modify" →
      handleElementsGenerated convertF restoreF existing batchCounter skeletons action
        = existing ++ restoreF (normalizeLinearElements (convertF skeletons))) ∧
    (∀ (convertF : List Skeleton → List Element)
       (restoreF : List Element → List Element)
       (existing : List Element) (batchCounter : Nat)
       (skeletons : List Skeleton),
      handleElementsGenerated convertF restoreF existing batchCounter skeletons "add"
        = existing ++ restoreF (normalizeLinearElements
            (convertF (prefixIds batchCounter skeletons)))) := by
  refine ⟨?_, ?_, ?_⟩
  · intro parsed h
    rw [actionOf, h]
  · intro cF rF ex c sks action h1 h2 h3
    simp [handleElementsGenerated, h1, h2, h3]
  · intro cF rF ex c sks
    simp [handleElementsGenerated]

/-- C5 witness: an object without an `action` field dispatches as "add", and
the concrete "insert" batch is appended without namespacing. -/
theorem handleElementsGenerated_dispatch_witness :
    actionOf (Json.obj []) = Json.str (("add").data) ∧
    handleElementsGenerated c5Convert id [] 0 [c5Sk] "insert"
      = [] ++ id (normalizeLinearElements (c5Convert [c5Sk])) := by
  refine ⟨handleElementsGenerated_dispatch.1 (Json.obj []) rfl, ?_⟩
  exact handleElementsGenerated_dispatch.2.1 c5Convert id [] 0 [c5Sk] "insert"
    (by decide) (by decide) (by decide)

/-! ## Claim C8 (confirmed) -/

/-- C8: whenever the accumulated output fails both parse paths or parses to a
value whose `elements` field is not a non-empty array, `processLLMResponse`
records a retryable error carrying the original prompt and never reaches
`onElementsGenerated` — the raw text causes no scene mutation. -/
theorem processLLMResponse_error (content prompt : String)
    (h : ∀ parsed, parseResponse content = some parsed →
      ∀ els, jsField parsed elementsKey = some (Json.arr els) → els = []) :
    ∃ msg, processLLMResponse content prompt
      = ProcOutcome.errorOut msg true prompt := by
  rw [processLLMResponse]
  cases hp : parseResponse content with
  | none => exact ⟨_, rfl⟩
  | some parsed =>
    dsimp only
    cases hf : jsField parsed elementsKey with
    | none => exact ⟨_, rfl⟩
    | some j =>
      cases j with
      | null => exact ⟨_, rfl⟩
      | bool b => exact ⟨_, rfl⟩
      | num lex => exact ⟨_, rfl⟩
      | str s => exact ⟨_, rfl⟩
      | obj fields => exact ⟨_, rfl⟩
      | arr els =>
        have hnil : els = [] := h parsed hp els hf
        subst hnil
        exact ⟨_, rfl⟩

/-- C8 witness: non-JSON output without braces yields a retryable error with
the original prompt. -/
theorem processLLMResponse_error_witness :
    ∃ msg, processLLMResponse ("hello") ("draw a cat")
      = ProcOutcome.errorOut msg true ("draw a cat") := by
  refine processLLMResponse_error ("hello") ("draw a cat") ?_
  intro parsed hp els _
  rw [show parseResponse ("hello") = none from rfl] at hp
  cases hp

/-! ## Claim C10 (corrected) -/

/-- C10 counterexample: a chunk whose delta content is the JSON number 5 is
truthy, so the relay emits a token event that does not carry a string at
all. -/
theorem c10_counterexample :
    relayLineL c10Bad.data = [RelayEvent.token (Json.num ['5'])] ∧
    (relayLineL c10Bad.data).all tokenIsNonemptyStr = false ∧
    (∀ s : List Char, Json.num ['5'] ≠ Json.str s) := by
  refine ⟨rfl, rfl, fun s h => Json.noConfusion h⟩

theorem relayTokens_line (cs : List Char) :
    relayTokens (relayLineL cs) = ((lineDelta cs).toList).filter jsTruthy := by
  rw [relayLineL, lineDelta]
  cases htrim : trimL cs with
  | nil => rfl
  | cons c t =>
    dsimp only
    cases hexp : expectLit (('d' : Char) :: 'a' :: 't' :: 'a' :: ':' :: ' ' :: []) (c :: t) with
    | none => rfl
    | some payload =>
      dsimp only
      by_cases hdone : payload = ['[', 'D', 'O', 'N', 'E', ']']
      · rw [if_pos hdone, if_pos hdone]
        rfl
      · rw [if_neg hdone, if_neg hdone]
        cases hjson : jsonParseL payload with
        | none => rfl
        | some chunk =>
          dsimp only
          cases hdelta : chunkDelta chunk with
          | none => rfl
          | some delta =>
            dsimp only
            by_cases ht : jsTruthy delta = true
            · rw [if_pos ht]
              show [delta] = [delta].filter jsTruthy
              rw [List.filter_cons, if_pos ht]
              rfl
            · rw [if_neg ht]
              rw [Bool.not_eq_true] at ht
              show ([] : List Json) = [delta].filter jsTruthy
              rw [List.filter_cons, if_neg (by rw [ht]; exact Bool.false_ne_true)]
              rfl

theorem relayTokens_append (a b : List RelayEvent) :
    relayTokens (a ++ b) = relayTokens a ++ relayTokens b := by
  rw [relayTokens, relayTokens, relayTokens, List.filterMap_append]

/-- C10 (amended): every token event the relay emits carries a truthy delta
value — a chunk whose delta content is missing, null, the empty string, or
otherwise falsy produces no token event — and the emitted token sequence is
exactly the sequence of truthy deltas of the upstream lines, in order. -/
theorem c10_truthy_tokens :
    (∀ lines : List (List Char),
      relayTokens (lines.flatMap relayLineL)
        = (lines.filterMap lineDelta).filter jsTruthy) ∧
    (∀ lines : List (List Char), ∀ j ∈ relayTokens (lines.flatMap relayLineL),
      jsTruthy j = true) := by
  have hmain : ∀ lines : List (List Char),
      relayTokens (lines.flatMap relayLineL)
        = (lines.filterMap lineDelta).filter jsTruthy := by
    intro lines
    induction lines with
    | nil => rfl
    | cons l t ih =>
      rw [List.flatMap_cons, relayTokens_append, relayTokens_line l, ih]
      cases hd : lineDelta l with
      | none => simp [List.filterMap_cons, hd]
      | some j =>
        by_cases hj : jsTruthy j = true
        · simp [List.filterMap_cons, hd, List.filter_cons, hj]
        · rw [Bool.not_eq_true] at hj
          simp [List.filterMap_cons, hd, List.filter_cons, hj]
  refine ⟨hmain, ?_⟩
  intro lines j hj
  rw [hmain lines] at hj
  exact List.of_mem_filter hj

/-- C10 witness: a concrete upstream line with string delta "Hi" — the token
stream equals the truthy-delta stream, and the emitted token is truthy. -/
theorem c10_truthy_tokens_witness :
    relayTokens ([c10Line.data].flatMap relayLineL)
      = ([c10Line.data].filterMap lineDelta).filter jsTruthy ∧
    jsTruthy (Json.str ['H', 'i']) = true := by
  refine ⟨c10_truthy_tokens.1 [c10Line.data], ?_⟩
  have hmem : Json.str ['H', 'i'] ∈ relayTokens ([c10Line.data].flatMap relayLineL) := by
    rw [show relayTokens ([c10Line.data].flatMap relayLineL)
        = [Json.str ['H', 'i']] from rfl]
    exact List.mem_singleton.mpr rfl
  exact c10_truthy_tokens.2 [c10Line.data] _ hmem

/-! ## Claim C7 (confirmed) -/

/-- Any text starting with the characters of "noise " fails `JSON.parse`: the
parser commits to the literal `null` on seeing 'n' and rejects at 'o'. -/
theorem jsonParseL_noise (rest : List Char) :
    jsonParseL ('n' :: 'o' :: rest) = none := rfl

theorem idxOf?_append_none (p : Char → Bool) (l1 l2 : List Char)
    (h : idxOf? p l1 = none) :
    idxOf? p (l1 ++ l2) = (idxOf? p l2).map (fun i => i + l1.length) := by
  induction l1 with
  | nil =>
    cases hl : idxOf? p l2 <;> simp [hl]
  | cons c t ih =>
    rw [idxOf?] at h
    by_cases hc : p c = true
    · rw [if_pos hc] at h
      cases h
    · rw [if_neg hc] at h
      have ht : idxOf? p t = none := by
        cases hh : idxOf? p t
        · rfl
        · rw [hh] at h; cases h
      rw [List.cons_append, idxOf?, if_neg hc, ih ht]
      cases hl : idxOf? p l2
      · rfl
      · simp
        omega

theorem idxOf?_cons_self (p : Char → Bool) (c : Char) (t : List Char)
    (h : p c = true) : idxOf? p (c :: t) = some 0 := by
  simp [idxOf?, h]

/-- The greedy brace extraction on a well-bracketed core surrounded by
brace-free noise returns exactly the core. -/
theorem extractBraces_wrap (noiseL mid noiseR : List Char)
    (hL : idxOf? (fun c => c = '{') noiseL = none)
    (hR : idxOf? (fun c => c = '}') noiseR.reverse = none) :
    extractBraces (noiseL ++ ('{' :: (mid ++ ['}'])) ++ noiseR)
      = some ('{' :: (mid ++ ['}'])) := by
  have hfirst : idxOf? (fun c => c = '{')
      ((noiseL ++ ('{' :: (mid ++ ['}']))) ++ noiseR) = some noiseL.length := by
    have h0 : idxOf? (fun c => c = '{') ('{' :: ((mid ++ ['}']) ++ noiseR))
        = some 0 := idxOf?_cons_self _ '{' ((mid ++ ['}']) ++ noiseR) (by decide)
    rw [List.append_assoc, idxOf?_append_none _ noiseL _ hL]
    simp only [List.cons_append, h0]
    simp
  have hrev : ((noiseL ++ ('{' :: (mid ++ ['}']))) ++ noiseR).reverse
      = noiseR.reverse ++ (('}' :: mid.reverse) ++ ('{' :: noiseL.reverse)) := by
    rw [List.reverse_append, List.reverse_append, List.reverse_cons,
      List.reverse_append]
    simp
  have hlen : ((noiseL ++ ('{' :: (mid ++ ['}']))) ++ noiseR).length
      = noiseL.length + mid.length + 2 + noiseR.length := by
    simp
    omega
  have hlast : lastIdxOf? (fun c => c = '}')
      ((noiseL ++ ('{' :: (mid ++ ['}']))) ++ noiseR)
      = some (noiseL.length + mid.length + 1) := by
    have h1 : idxOf? (fun c => c = '}')
        ('}' :: (mid.reverse ++ ('{' :: noiseL.reverse))) = some 0 :=
      idxOf?_cons_self _ '}' (mid.reverse ++ ('{' :: noiseL.reverse)) (by decide)
    rw [lastIdxOf?, hrev, idxOf?_append_none _ _ _ hR]
    simp only [List.cons_append, h1]
    rw [hlen]
    simp
  rw [extractBraces, hfirst, hlast]
  dsimp only
  rw [if_pos (by omega)]
  have hdrop : ((noiseL ++ ('{' :: (mid ++ ['}']))) ++ noiseR).drop noiseL.length
      = ('{' :: (mid ++ ['}'])) ++ noiseR := by
    rw [List.append_assoc]
    exact List.drop_left noiseL _
  rw [hdrop]
  have htake : (('{' :: (mid ++ ['}'])) ++ noiseR).take
      (noiseL.length + mid.length + 1 - noiseL.length + 1) = '{' :: (mid ++ ['}']) := by
    refine List.take_left' ?_
    simp
    omega
  rw [htake]

/-- C7: for every content string that is the text of a JSON object (it
parses to an object, starts with an opening brace and ends with a closing
brace), the response parser yields the same object on `content` and on
`"noise " ++ content ++ " noise"`: the direct-parse path and the greedy
substring-extraction path agree. -/
theorem parseResponse_noise_robust (content : String)
    (fields : List (List Char × Json))
    (hparse : jsonParse content = some (Json.obj fields))
    (hhead : content.data.head? = some '{')
    (hlast : content.data.getLast? = some '}') :
    parseResponse content = some (Json.obj fields) ∧
    parseResponse (("noise ") ++ content ++ (" noise")) = some (Json.obj fields) := by
  constructor
  · rw [parseResponse, hparse]
  · obtain ⟨mid, hdata⟩ : ∃ mid, content.data = '{' :: (mid ++ ['}']) := by
      cases hcd : content.data with
      | nil => rw [hcd] at hhead; cases hhead
      | cons c t =>
        rw [hcd, List.head?_cons] at hhead
        have hc : c = '{' := Option.some.inj hhead
        subst hc
        cases t with
        | nil =>
          rw [hcd, show (['{'] : List Char).getLast? = some '{' from rfl] at hlast
          exact absurd (Option.some.inj hlast) (by decide)
        | cons c2 t2 =>
          have hne : (c2 :: t2) ≠ [] := List.cons_ne_nil c2 t2
          refine ⟨(c2 :: t2).dropLast, ?_⟩
          have hgl : (c2 :: t2).getLast hne = '}' := by
            rw [hcd, List.getLast?_eq_getLast ('{' :: c2 :: t2)
              (List.cons_ne_nil _ _)] at hlast
            have h := Option.some.inj hlast
            rw [← h]
            exact (List.getLast_cons hne).symm
          refine congrArg (List.cons '{') ?_
          rw [← hgl]
          exact (List.dropLast_append_getLast hne).symm
    have hnd : (("noise ") ++ content ++ (" noise")).data
        = ("noise ").data ++ content.data ++ (" noise").data := by
      rw [String.data_append, String.data_append]
    have hnoise : jsonParse (("noise ") ++ content ++ (" noise")) = none := by
      rw [jsonParse, hnd, hdata,
        show ("noise ").data = 'n' :: 'o' :: 'i' :: 's' :: 'e' :: ' ' :: [] from rfl]
      simp only [List.cons_append, List.nil_append]
      exact jsonParseL_noise _
    have hex : extractBraces (("noise ") ++ content ++ (" noise")).data
        = some content.data := by
      rw [hnd, hdata]
      rw [extractBraces_wrap (("noise ").data) mid ((" noise").data)
        (by decide) (by decide)]
    rw [parseResponse, hnoise, hex]
    rw [jsonParse] at hparse
    exact hparse

/-- C7 witness: a concrete JSON object survives being wrapped in noise. -/
theorem parseResponse_noise_robust_witness :
    parseResponse ("\x7b\"a\":null\x7d") = some (Json.obj [(['a'], Json.null)]) ∧
    parseResponse (("noise ") ++ ("\x7b\"a\":null\x7d") ++ (" noise"))
      = some (Json.obj [(['a'], Json.null)]) :=
  parseResponse_noise_robust ("\x7b\"a\":null\x7d") [(['a'], Json.null)]
    rfl rfl rfl

end Xcali
